import Mathlib

/-!
# Verification of the pingdisco subnet-sweep core

Shallow embedding of `cmd/pingdisco/main.go` (package `main`).

The sweep engine works on 4-byte IPv4 addresses (`net.IP` values that have
been masked to 4-byte form by `IP.Mask`).  Bytes are modelled as `Nat` with
explicit `% 256`; 32-bit whole-address arithmetic uses explicit `% 2^32`.

Concurrency: `scanSubnet` launches one goroutine per candidate address and
appends a `Device` to the shared slice under a mutex, so the pre-sort
collection order is an arbitrary permutation of the reachable candidates.
The embedding makes that completion order an explicit parameter
(`scanSubnetSchedule`); `scanSubnet` instantiates it with the enumeration
order itself (one possible schedule).
-/

set_option maxRecDepth 40000

/-- A 4-byte IPv4 address, the shape `scanSubnet` works on after
`ipnet.IP.Mask(ipnet.Mask)` (`ip[0] … ip[3]`, big-endian). -/
structure IPv4 where
  b0 : Nat
  b1 : Nat
  b2 : Nat
  b3 : Nat
deriving DecidableEq, Repr

/-- Every byte of the address is in range (Go's `byte` invariant). -/
def IPv4.Valid (ip : IPv4) : Prop :=
  ip.b0 < 256 ∧ ip.b1 < 256 ∧ ip.b2 < 256 ∧ ip.b3 < 256

instance (ip : IPv4) : Decidable ip.Valid := by
  unfold IPv4.Valid
  infer_instance

/-- The whole-address value, big-endian (byte 0 most significant). -/
def IPv4.toNat (ip : IPv4) : Nat :=
  ((ip.b0 * 256 + ip.b1) * 256 + ip.b2) * 256 + ip.b3

/-- The address with the given 32-bit value (inverse of `IPv4.toNat`
on valid addresses). -/
def IPv4.ofNat32 (n : Nat) : IPv4 :=
  ⟨n / 16777216 % 256, n / 65536 % 256, n / 256 % 256, n % 256⟩

/-- `net.IPNet`: a network base address plus subnet mask
(the spec's NetworkRange). -/
structure NetworkRange where
  base : IPv4
  mask : IPv4
deriving DecidableEq, Repr

/-- `net.IP.Mask`: bytewise AND of an address with a mask. -/
def maskIP (ip m : IPv4) : IPv4 :=
  ⟨ip.b0 &&& m.b0, ip.b1 &&& m.b1, ip.b2 &&& m.b2, ip.b3 &&& m.b3⟩

/-- All bytes in range, and the base network-aligned
(`base AND mask == base`, the spec's §3 invariant). -/
def NetworkRange.WellFormed (r : NetworkRange) : Prop :=
  r.base.Valid ∧ r.mask.Valid ∧ maskIP r.base r.mask = r.base

instance (r : NetworkRange) : Decidable r.WellFormed := by
  unfold NetworkRange.WellFormed
  infer_instance

/-- `net.IPNet.Contains`: the address masked with the range's mask equals
the range's base masked with it. -/
def contains (r : NetworkRange) (ip : IPv4) : Bool :=
  maskIP ip r.mask == maskIP r.base r.mask

/-- `incrementIP` from main.go: increment the last byte; on wrap (the byte
becomes 0) carry into the next byte to the left, through all four bytes. -/
def incrementIP (ip : IPv4) : IPv4 :=
  if (ip.b3 + 1) % 256 > 0 then ⟨ip.b0, ip.b1, ip.b2, (ip.b3 + 1) % 256⟩
  else if (ip.b2 + 1) % 256 > 0 then ⟨ip.b0, ip.b1, (ip.b2 + 1) % 256, (ip.b3 + 1) % 256⟩
  else if (ip.b1 + 1) % 256 > 0 then ⟨ip.b0, (ip.b1 + 1) % 256, (ip.b2 + 1) % 256, (ip.b3 + 1) % 256⟩
  else ⟨(ip.b0 + 1) % 256, (ip.b1 + 1) % 256, (ip.b2 + 1) % 256, (ip.b3 + 1) % 256⟩

/-- The state of the `scanSubnet` loop variable after `n` calls of
`incrementIP`, starting from `ip`. -/
def iterIP (ip : IPv4) : Nat → IPv4
  | 0 => ip
  | n + 1 => incrementIP (iterIP ip n)

/-- The loop's starting address: `ipnet.IP.Mask(ipnet.Mask)` masked once
more by the loop initialiser `ip.Mask(ipnet.Mask)`. -/
def scanStart (r : NetworkRange) : IPv4 :=
  maskIP (maskIP r.base r.mask) r.mask

/-- The addresses visited by the `for … ; ipnet.Contains(ip) ; incrementIP(ip)`
loop, from `ip`, with explicit fuel.  The Go loop has no fuel; fuel
`2^32` (`addressFuel`) covers the whole IPv4 space, so for every range
whose loop exits it reproduces the loop's visit sequence exactly, and for
every range it reproduces the set of visited addresses. -/
def enumFrom (r : NetworkRange) : Nat → IPv4 → List IPv4
  | 0, _ => []
  | fuel + 1, ip => if contains r ip then ip :: enumFrom r fuel (incrementIP ip) else []

/-- One address per point of the IPv4 space. -/
def addressFuel : Nat := 4294967296

/-- The candidate addresses the sweep probes: the visited addresses minus
those whose final octet is 0 or 255
(`if ip[3] == 0 || ip[3] == 255 { continue }`). -/
def hostCandidates (r : NetworkRange) : List IPv4 :=
  (enumFrom r addressFuel (scanStart r)).filter (fun ip => !(ip.b3 == 0 || ip.b3 == 255))

/-- The `Device` struct of main.go. -/
structure Device where
  IP : IPv4
  Online : Bool
  Hostname : String
deriving DecidableEq, Repr

/-- Body of the per-candidate goroutine: probe, and if online resolve a
hostname and append `Device{IP: copy, Online: online, Hostname: hostname}`.
(The Go code copies `targetIP` twice — into the goroutine argument and into
the stored Device — which is aliasing bookkeeping with no counterpart in a
value semantics.)  `prober`/`resolver` are the LivenessProber and
HostnameResolver capabilities (`pingHost` / `resolveHostname`). -/
def collectDevices (prober : IPv4 → Bool) (resolver : IPv4 → String)
    (order : List IPv4) : List Device :=
  order.filterMap (fun targetIP =>
    let online := prober targetIP
    if online then some ⟨targetIP, online, resolver targetIP⟩ else none)

/-- `sort.Slice(devices, func(i, j) { return devices[i].IP[3] < devices[j].IP[3] })`:
an (unstable) sort whose output is nondecreasing in the final octet.
`sort.Slice` fixes the result only up to the order of ties (and the
pre-sort order is itself a scheduling artifact); the embedding realizes
it as an insertion sort on the non-strict key order, which resolves ties
by the input order. -/
def sortDevices (devices : List Device) : List Device :=
  devices.insertionSort (fun d1 d2 => d1.IP.b3 ≤ d2.IP.b3)

/-- `scanSubnet` with the goroutine completion order made explicit:
`order` is the order in which the per-candidate goroutines append to the
shared slice (any permutation of the candidate enumeration). -/
def scanSubnetSchedule (prober : IPv4 → Bool) (resolver : IPv4 → String)
    (order : List IPv4) : List Device :=
  sortDevices (collectDevices prober resolver order)

/-- `scanSubnet` from main.go, instantiated with the canonical completion
order (the enumeration order itself). -/
def scanSubnet (r : NetworkRange) (prober : IPv4 → Bool) (resolver : IPv4 → String) :
    List Device :=
  scanSubnetSchedule prober resolver (hostCandidates r)

example :
    hostCandidates ⟨⟨192, 168, 1, 0⟩, ⟨255, 255, 255, 0⟩⟩ =
      (List.range 254).map (fun k => ⟨192, 168, 1, k + 1⟩) := by decide

/-! ## Whole-address arithmetic: `incrementIP` is +1 modulo `2^32` -/

theorem IPv4.toNat_lt {ip : IPv4} (h : ip.Valid) : ip.toNat < 4294967296 := by
  obtain ⟨a, b, c, d⟩ := ip
  obtain ⟨h0, h1, h2, h3⟩ := h
  dsimp only [IPv4.toNat] at *
  omega

theorem IPv4.ofNat32_valid (n : Nat) : (IPv4.ofNat32 n).Valid := by
  simp only [IPv4.ofNat32, IPv4.Valid]
  omega

theorem IPv4.toNat_ofNat32 (n : Nat) : (IPv4.ofNat32 n).toNat = n % 4294967296 := by
  simp only [IPv4.ofNat32, IPv4.toNat]
  omega

theorem IPv4.ofNat32_toNat {ip : IPv4} (h : ip.Valid) : IPv4.ofNat32 ip.toNat = ip := by
  obtain ⟨a, b, c, d⟩ := ip
  obtain ⟨h0, h1, h2, h3⟩ := h
  dsimp only at h0 h1 h2 h3
  simp only [IPv4.ofNat32, IPv4.toNat, IPv4.mk.injEq]
  refine ⟨?_, ?_, ?_, ?_⟩ <;> omega

theorem incrementIP_eq {ip : IPv4} (h : ip.Valid) :
    incrementIP ip = IPv4.ofNat32 ((ip.toNat + 1) % 4294967296) := by
  obtain ⟨a, b, c, d⟩ := ip
  obtain ⟨h0, h1, h2, h3⟩ := h
  dsimp only at h0 h1 h2 h3
  simp only [incrementIP, IPv4.toNat, IPv4.ofNat32]
  split_ifs with h4 h5 h6 <;>
    · simp only [IPv4.mk.injEq]
      refine ⟨?_, ?_, ?_, ?_⟩ <;> omega

theorem incrementIP_valid {ip : IPv4} (h : ip.Valid) : (incrementIP ip).Valid := by
  rw [incrementIP_eq h]
  exact IPv4.ofNat32_valid _

theorem iterIP_eq {ip : IPv4} (h : ip.Valid) (n : Nat) :
    iterIP ip n = IPv4.ofNat32 ((ip.toNat + n) % 4294967296) := by
  induction n with
  | zero =>
      simp only [iterIP, Nat.add_zero, Nat.mod_eq_of_lt (IPv4.toNat_lt h)]
      exact (IPv4.ofNat32_toNat h).symm
  | succ n ih =>
      simp only [iterIP, ih]
      rw [incrementIP_eq (IPv4.ofNat32_valid _), IPv4.toNat_ofNat32]
      congr 1
      omega

theorem iterIP_valid {ip : IPv4} (h : ip.Valid) (n : Nat) : (iterIP ip n).Valid := by
  cases n with
  | zero => exact h
  | succ n => exact incrementIP_valid (iterIP_valid h n)

/-- Addresses visited by the loop are pairwise distinct while the step
count stays below the size of the address space. -/
theorem iterIP_inj {ip : IPv4} (h : ip.Valid) {k1 k2 : Nat}
    (hk1 : k1 < 4294967296) (hk2 : k2 < 4294967296)
    (heq : iterIP ip k1 = iterIP ip k2) : k1 = k2 := by
  rw [iterIP_eq h, iterIP_eq h] at heq
  have := congrArg IPv4.toNat heq
  rw [IPv4.toNat_ofNat32, IPv4.toNat_ofNat32] at this
  omega

/-! ## The enumeration loop -/

theorem mem_enumFrom_contains {r : NetworkRange} :
    ∀ {fuel : Nat} {ip x : IPv4}, x ∈ enumFrom r fuel ip → contains r x = true := by
  intro fuel
  induction fuel with
  | zero => intro ip x hx; simp [enumFrom] at hx
  | succ fuel ih =>
      intro ip x hx
      simp only [enumFrom] at hx
      by_cases hc : contains r ip
      · rw [if_pos hc] at hx
        rcases List.mem_cons.mp hx with rfl | hx
        · exact hc
        · exact ih hx
      · rw [if_neg hc] at hx
        simp at hx

theorem iterIP_incrementIP (ip : IPv4) (n : Nat) :
    iterIP (incrementIP ip) n = iterIP ip (n + 1) := by
  induction n with
  | zero => rfl
  | succ n ih => simp only [iterIP, ih]

/-- If the loop guard holds for the first `n0` visited addresses and fails
at the `n0`-th increment, the loop visits exactly `iterIP ip 0 … iterIP ip (n0-1)`. -/
theorem enumFrom_eq_range_map {r : NetworkRange} :
    ∀ {n0 fuel : Nat} {ip : IPv4}, n0 ≤ fuel →
      (∀ k, k < n0 → contains r (iterIP ip k) = true) →
      contains r (iterIP ip n0) = false →
      enumFrom r fuel ip = (List.range n0).map (iterIP ip) := by
  intro n0
  induction n0 with
  | zero =>
      intro fuel ip _ _ hexit
      cases fuel with
      | zero => simp [enumFrom]
      | succ fuel =>
          simp only [enumFrom, iterIP] at hexit ⊢
          rw [if_neg (by simp [hexit])]
          simp
  | succ n0 ih =>
      intro fuel ip hle hall hexit
      cases fuel with
      | zero => omega
      | succ fuel =>
          have h0 : contains r ip = true := hall 0 (Nat.succ_pos n0)
          simp only [enumFrom, if_pos h0]
          have htail : enumFrom r fuel (incrementIP ip) =
              (List.range n0).map (iterIP (incrementIP ip)) := by
            refine ih (Nat.le_of_succ_le_succ hle) ?_ ?_
            · intro k hk
              rw [iterIP_incrementIP]
              exact hall (k + 1) (Nat.succ_lt_succ hk)
            · rw [iterIP_incrementIP]
              exact hexit
          rw [htail, List.range_succ_eq_map]
          simp only [List.map_cons, List.map_map]
          refine congrArg (_ :: ·) (List.map_congr_left ?_)
          intro k _
          simp only [Function.comp_apply, Nat.succ_eq_add_one]
          exact iterIP_incrementIP _ k

/-! ## Termination of the enumeration loop -/

/-- The `scanSubnet` loop exits: at some step the guard
`ipnet.Contains(ip)` becomes false. -/
def Terminates (r : NetworkRange) : Prop :=
  ∃ n, contains r (iterIP (scanStart r) n) = false

theorem land_byte_lt (x : Nat) {m : Nat} (hm : m < 256) : x &&& m < 256 := by
  have := Nat.and_lt_two_pow x (n := 8) (y := m) (by simpa using hm)
  simpa using this

theorem maskIP_valid (ip : IPv4) {m : IPv4} (hm : m.Valid) : (maskIP ip m).Valid := by
  obtain ⟨hm0, hm1, hm2, hm3⟩ := hm
  exact ⟨land_byte_lt _ hm0, land_byte_lt _ hm1, land_byte_lt _ hm2, land_byte_lt _ hm3⟩

theorem scanStart_valid {r : NetworkRange} (hm : r.mask.Valid) : (scanStart r).Valid :=
  maskIP_valid _ hm

/-- A nonzero byte mask can always be escaped: some byte value masks to a
different result than `s` does. -/
theorem exists_byte_diff {s m : Nat} (hs : s < 256) (hm : m < 256) (hmne : m ≠ 0) :
    ∃ y, y < 256 ∧ y &&& m ≠ s &&& m := by
  obtain ⟨j, hj⟩ := Nat.ne_zero_implies_bit_true hmne
  have hj8 : j < 8 := by
    by_contra hge
    have h2 : m < 2 ^ j :=
      lt_of_lt_of_le (by simpa using hm) (Nat.pow_le_pow_right (by norm_num) (not_lt.mp hge))
    rw [Nat.testBit_lt_two_pow h2] at hj
    exact Bool.noConfusion hj
  refine ⟨s ^^^ 2 ^ j, ?_, ?_⟩
  · have := Nat.xor_lt_two_pow (n := 8) (by simpa using hs)
      (Nat.pow_lt_pow_right (by norm_num) hj8)
    simpa using this
  · intro heq
    have hbit := congrArg (fun t => Nat.testBit t j) heq
    simp only [Nat.testBit_and, Nat.testBit_xor, Nat.testBit_two_pow_self, hj,
      Bool.and_true] at hbit
    cases hsb : Nat.testBit s j <;> simp [hsb] at hbit

/-- `Contains` is false as soon as one masked byte disagrees. -/
theorem contains_false_of_byte {r : NetworkRange} {v : IPv4}
    (h : v.b0 &&& r.mask.b0 ≠ r.base.b0 &&& r.mask.b0 ∨
         v.b1 &&& r.mask.b1 ≠ r.base.b1 &&& r.mask.b1 ∨
         v.b2 &&& r.mask.b2 ≠ r.base.b2 &&& r.mask.b2 ∨
         v.b3 &&& r.mask.b3 ≠ r.base.b3 &&& r.mask.b3) :
    contains r v = false := by
  rw [contains, beq_eq_false_iff_ne]
  intro heq
  rcases h with h | h | h | h
  · exact h (congrArg IPv4.b0 heq)
  · exact h (congrArg IPv4.b1 heq)
  · exact h (congrArg IPv4.b2 heq)
  · exact h (congrArg IPv4.b3 heq)

/-- Any valid address outside the range is reached by the loop within
`2^32` increments (the increment walks the whole address space). -/
theorem exit_of_target {r : NetworkRange} (hm : r.mask.Valid) {v : IPv4}
    (hv : v.Valid) (hcf : contains r v = false) :
    ∃ n, n < 4294967296 ∧ contains r (iterIP (scanStart r) n) = false := by
  have hs : (scanStart r).Valid := scanStart_valid hm
  have h1 : (scanStart r).toNat < 4294967296 := IPv4.toNat_lt hs
  have h2 : v.toNat < 4294967296 := IPv4.toNat_lt hv
  refine ⟨(v.toNat + 4294967296 - (scanStart r).toNat) % 4294967296,
    Nat.mod_lt _ (by norm_num), ?_⟩
  rw [iterIP_eq hs]
  have harith : ((scanStart r).toNat +
      (v.toNat + 4294967296 - (scanStart r).toNat) % 4294967296) % 4294967296 = v.toNat := by
    omega
  rw [harith, IPv4.ofNat32_toNat hv]
  exact hcf

/-- For a valid range whose mask is not all-zero the loop exits, within
`2^32` steps. -/
theorem exists_exit {r : NetworkRange} (hb : r.base.Valid) (hm : r.mask.Valid)
    (hmask : r.mask ≠ ⟨0, 0, 0, 0⟩) :
    ∃ n, n < 4294967296 ∧ contains r (iterIP (scanStart r) n) = false := by
  obtain ⟨hb0, hb1, hb2, hb3⟩ := hb
  obtain ⟨hm0, hm1, hm2, hm3⟩ := hm
  have hcases : r.mask.b0 ≠ 0 ∨ r.mask.b1 ≠ 0 ∨ r.mask.b2 ≠ 0 ∨ r.mask.b3 ≠ 0 := by
    by_contra hall
    push_neg at hall
    obtain ⟨e0, e1, e2, e3⟩ := hall
    refine hmask ?_
    have heta : r.mask = ⟨r.mask.b0, r.mask.b1, r.mask.b2, r.mask.b3⟩ := rfl
    rw [heta, e0, e1, e2, e3]
  have hb256 : (0 : Nat) < 256 := by norm_num
  rcases hcases with hne | hne | hne | hne
  · obtain ⟨y, hy, hyne⟩ := exists_byte_diff hb0 hm0 hne
    exact exit_of_target ⟨hm0, hm1, hm2, hm3⟩ (v := ⟨y, 0, 0, 0⟩)
      ⟨hy, hb256, hb256, hb256⟩ (contains_false_of_byte (Or.inl hyne))
  · obtain ⟨y, hy, hyne⟩ := exists_byte_diff hb1 hm1 hne
    exact exit_of_target ⟨hm0, hm1, hm2, hm3⟩ (v := ⟨0, y, 0, 0⟩)
      ⟨hb256, hy, hb256, hb256⟩ (contains_false_of_byte (Or.inr (Or.inl hyne)))
  · obtain ⟨y, hy, hyne⟩ := exists_byte_diff hb2 hm2 hne
    exact exit_of_target ⟨hm0, hm1, hm2, hm3⟩ (v := ⟨0, 0, y, 0⟩)
      ⟨hb256, hb256, hy, hb256⟩
      (contains_false_of_byte (Or.inr (Or.inr (Or.inl hyne))))
  · obtain ⟨y, hy, hyne⟩ := exists_byte_diff hb3 hm3 hne
    exact exit_of_target ⟨hm0, hm1, hm2, hm3⟩ (v := ⟨0, 0, 0, y⟩)
      ⟨hb256, hb256, hb256, hy⟩
      (contains_false_of_byte (Or.inr (Or.inr (Or.inr hyne))))

/-! ## No address is visited twice -/

/-- For a valid range with a nonzero mask, the candidate list has no
duplicates. -/
theorem hostCandidates_nodup {r : NetworkRange} (hb : r.base.Valid) (hm : r.mask.Valid)
    (hmask : r.mask ≠ ⟨0, 0, 0, 0⟩) : (hostCandidates r).Nodup := by
  obtain ⟨n, hnlt, hexit⟩ := exists_exit hb hm hmask
  have hs : (scanStart r).Valid := scanStart_valid hm
  have hterm : ∃ k, contains r (iterIP (scanStart r) k) = false := ⟨n, hexit⟩
  classical
  set n0 := Nat.find hterm with hn0
  have hn0le : n0 ≤ n := Nat.find_min' hterm hexit
  have hfind : contains r (iterIP (scanStart r) n0) = false := Nat.find_spec hterm
  have hbefore : ∀ k, k < n0 → contains r (iterIP (scanStart r) k) = true := by
    intro k hk
    have := Nat.find_min hterm hk
    simpa using this
  have henum : enumFrom r addressFuel (scanStart r) =
      (List.range n0).map (iterIP (scanStart r)) := by
    refine enumFrom_eq_range_map ?_ hbefore hfind
    show n0 ≤ addressFuel
    unfold addressFuel
    omega
  rw [hostCandidates, henum]
  refine List.Nodup.filter _ (List.Nodup.map_on ?_ (List.nodup_range n0))
  intro k1 hk1 k2 hk2 heq
  rw [List.mem_range] at hk1 hk2
  exact iterIP_inj hs (by omega) (by omega) heq

/-! ## The /24 case: the loop walks the final octet 0…255 and stops -/

theorem land_255 (x : Nat) : x &&& 255 = x % 256 := by
  have h := Nat.and_pow_two_sub_one_eq_mod x 8
  norm_num at h
  exact h

theorem iterIP_slash24 {b0 b1 b2 : Nat} :
    ∀ k, k ≤ 255 → iterIP ⟨b0, b1, b2, 0⟩ k = ⟨b0, b1, b2, k⟩ := by
  intro k
  induction k with
  | zero => intro _; rfl
  | succ k ih =>
      intro hk
      have hstep : iterIP ⟨b0, b1, b2, 0⟩ (k + 1) = incrementIP (iterIP ⟨b0, b1, b2, 0⟩ k) := rfl
      rw [hstep, ih (by omega), incrementIP]
      dsimp only
      rw [if_pos (by omega : (k + 1) % 256 > 0)]
      rw [Nat.mod_eq_of_lt (by omega)]

theorem scanStart_slash24 {b0 b1 b2 b3 : Nat} (h0 : b0 < 256) (h1 : b1 < 256) (h2 : b2 < 256) :
    scanStart ⟨⟨b0, b1, b2, b3⟩, ⟨255, 255, 255, 0⟩⟩ = ⟨b0, b1, b2, 0⟩ := by
  simp only [scanStart, maskIP]
  simp only [land_255, Nat.and_zero, IPv4.mk.injEq]
  exact ⟨by omega, by omega, by omega, trivial⟩

theorem contains_slash24 {b0 b1 b2 : Nat} (k : Nat) :
    contains ⟨⟨b0, b1, b2, 0⟩, ⟨255, 255, 255, 0⟩⟩ ⟨b0, b1, b2, k⟩ = true := by
  simp [contains, maskIP]

theorem incrementIP_b2_of_b3_255 (a b c : Nat) :
    (incrementIP ⟨a, b, c, 255⟩).b2 = (c + 1) % 256 := by
  rw [incrementIP]
  dsimp only
  rw [if_neg (by norm_num)]
  split_ifs <;> rfl

theorem contains_slash24_exit {b0 b1 b2 : Nat} :
    contains ⟨⟨b0, b1, b2, 0⟩, ⟨255, 255, 255, 0⟩⟩ (iterIP ⟨b0, b1, b2, 0⟩ 256) = false := by
  have hstep : iterIP ⟨b0, b1, b2, 0⟩ 256 = incrementIP (iterIP ⟨b0, b1, b2, 0⟩ 255) := rfl
  rw [hstep, iterIP_slash24 255 le_rfl]
  refine contains_false_of_byte (Or.inr (Or.inr (Or.inl ?_)))
  dsimp only
  rw [incrementIP_b2_of_b3_255, land_255, land_255]
  omega

theorem enumFrom_slash24 {b0 b1 b2 : Nat} (h0 : b0 < 256) (h1 : b1 < 256) (h2 : b2 < 256) :
    enumFrom ⟨⟨b0, b1, b2, 0⟩, ⟨255, 255, 255, 0⟩⟩ addressFuel
        (scanStart ⟨⟨b0, b1, b2, 0⟩, ⟨255, 255, 255, 0⟩⟩) =
      (List.range 256).map (fun k => ⟨b0, b1, b2, k⟩) := by
  rw [scanStart_slash24 h0 h1 h2]
  have hmain : enumFrom ⟨⟨b0, b1, b2, 0⟩, ⟨255, 255, 255, 0⟩⟩ addressFuel ⟨b0, b1, b2, 0⟩ =
      (List.range 256).map (iterIP ⟨b0, b1, b2, 0⟩) := by
    refine enumFrom_eq_range_map (by unfold addressFuel; omega) ?_ contains_slash24_exit
    intro k hk
    rw [iterIP_slash24 k (by omega)]
    exact contains_slash24 k
  rw [hmain]
  refine List.map_congr_left ?_
  intro k hk
  rw [List.mem_range] at hk
  exact iterIP_slash24 k (by omega)

theorem hostCandidates_slash24 {b0 b1 b2 : Nat} (h0 : b0 < 256) (h1 : b1 < 256)
    (h2 : b2 < 256) :
    hostCandidates ⟨⟨b0, b1, b2, 0⟩, ⟨255, 255, 255, 0⟩⟩ =
      ((List.range 256).filter (fun k => !(k == 0 || k == 255))).map
        (fun k => ⟨b0, b1, b2, k⟩) := by
  rw [hostCandidates, enumFrom_slash24 h0 h1 h2, List.filter_map]
  rfl

theorem range_256_filter_length :
    (((List.range 256).filter (fun k => !(k == 0 || k == 255))).length) = 254 := by decide

/-! ## Collection and sorting -/

theorem collectDevices_map_IP (p : IPv4 → Bool) (res : IPv4 → String) :
    ∀ l : List IPv4, (collectDevices p res l).map Device.IP = l.filter p := by
  intro l
  induction l with
  | nil => rfl
  | cons hd tl ih =>
      simp only [collectDevices, List.filterMap_cons, List.filter_cons] at ih ⊢
      by_cases hp : p hd
      · simp only [hp, if_pos, List.map_cons, ih]
      · simp only [hp, Bool.false_eq_true, if_neg]
        exact ih

theorem online_of_mem_collect {p : IPv4 → Bool} {res : IPv4 → String} {l : List IPv4}
    {d : Device} (hd : d ∈ collectDevices p res l) : d.Online = true ∧ p d.IP = true := by
  simp only [collectDevices, List.mem_filterMap] at hd
  obtain ⟨ip, _, hip⟩ := hd
  by_cases hp : p ip
  · rw [if_pos hp] at hip
    obtain rfl := (Option.some.injEq _ _).mp hip
    exact ⟨hp, hp⟩
  · rw [if_neg hp] at hip
    exact Option.noConfusion hip

theorem collect_nil_of_offline {p : IPv4 → Bool} {res : IPv4 → String} :
    ∀ {l : List IPv4}, (∀ ip ∈ l, p ip = false) → collectDevices p res l = [] := by
  intro l
  induction l with
  | nil => intro _; rfl
  | cons hd tl ih =>
      intro h
      have hhd : p hd = false := h hd (List.mem_cons_self hd tl)
      simp only [collectDevices, List.filterMap_cons] at ih ⊢
      rw [if_neg (by simp [hhd])]
      exact ih (fun ip hip => h ip (List.mem_cons_of_mem hd hip))

instance : IsTotal Device (fun d1 d2 => d1.IP.b3 ≤ d2.IP.b3) :=
  ⟨fun a b => Nat.le_total a.IP.b3 b.IP.b3⟩

instance : IsTrans Device (fun d1 d2 => d1.IP.b3 ≤ d2.IP.b3) :=
  ⟨fun _ _ _ h1 h2 => Nat.le_trans h1 h2⟩

theorem sortDevices_perm (l : List Device) : (sortDevices l).Perm l :=
  List.perm_insertionSort _ l

theorem sortDevices_sorted (l : List Device) :
    (sortDevices l).Pairwise (fun d1 d2 => d1.IP.b3 ≤ d2.IP.b3) :=
  List.sorted_insertionSort _ l

theorem sortDevices_eq_of_perm {l1 l2 : List Device} (hperm : l1.Perm l2)
    (hkeys : (sortDevices l1).Pairwise (fun d1 d2 => d1.IP.b3 ≠ d2.IP.b3)) :
    sortDevices l1 = sortDevices l2 := by
  have hp : (sortDevices l1).Perm (sortDevices l2) :=
    (sortDevices_perm l1).trans (hperm.trans (sortDevices_perm l2).symm)
  have hkeys2 : (sortDevices l2).Pairwise (fun d1 d2 => d1.IP.b3 ≠ d2.IP.b3) :=
    (hp.pairwise_iff (fun h => Ne.symm h)).mp hkeys
  have hstrict1 : (sortDevices l1).Pairwise (fun d1 d2 => d1.IP.b3 < d2.IP.b3) :=
    ((sortDevices_sorted l1).and hkeys).imp (fun h => Nat.lt_of_le_of_ne h.1 h.2)
  have hstrict2 : (sortDevices l2).Pairwise (fun d1 d2 => d1.IP.b3 < d2.IP.b3) :=
    ((sortDevices_sorted l2).and hkeys2).imp (fun h => Nat.lt_of_le_of_ne h.1 h.2)
  haveI : IsAntisymm Device (fun d1 d2 => d1.IP.b3 < d2.IP.b3) :=
    ⟨fun a b h1 h2 => absurd h2 (Nat.lt_asymm h1)⟩
  exact List.eq_of_perm_of_sorted hp hstrict1 hstrict2

/-! ## The capability boundaries: `pingHost` and `resolveHostname`

`pingHost` runs an external process and `resolveHostname` performs a
reverse-DNS lookup, so each is embedded as a function of the outcome of
its single I/O call.  An output of `none` models a runtime panic. -/

/-- `(*os.ProcessState).Success()` applied to `cmd.ProcessState` after
`cmd.Run()`.  `some ok` is a ProcessState of a process that ran, with
`ok` iff it exited with status 0.  `none` is the nil ProcessState left
behind when the command never started (for example the ping binary is
missing from PATH): `Success` then dereferences a nil pointer, a runtime
panic, modelled as output `none`. -/
def processStateSuccess : Option Bool → Option Bool
  | some ok => some ok
  | none => none

/-- `pingHost` from main.go: runs the platform echo probe (one packet,
~1s timeout; the `runtime.GOOS` branch only changes flag spelling),
ignores `cmd.Run()`'s error value, and returns
`cmd.ProcessState.Success()`.  A probe that times out, gets destination
unreachable, or is denied permission exits nonzero: `processState` is
`some false` and the host is reported unreachable.  A missing probe tool
leaves `processState` nil (`none`). -/
def pingHost (processState : Option Bool) : Option Bool :=
  processStateSuccess processState

/-- `resolveHostname` from main.go as a function of the outcome of
`net.LookupAddr`: `none` — the lookup returned an error; `some names` —
the returned name list.  The code returns `""` on error or an empty
list; otherwise it takes the first name and, if its last byte is a dot,
strips that one byte.  When the first name is the empty string,
`hostname[len(hostname)-1]` is an index-out-of-range runtime panic,
modelled as output `none`. -/
def resolveHostname (lookup : Option (List String)) : Option String :=
  match lookup with
  | none => some ""
  | some [] => some ""
  | some (hostname :: _) =>
      if hostname = "" then none
      else if hostname.back = '.' then some (hostname.dropRight 1)
      else some hostname

/-! ## Production events of the enumeration (fuel-free) -/

/-- The loop produces candidate `ip` at step `n`: the guard
`ipnet.Contains` held at every step up to `n` (so the loop is still
running), the loop variable equals `ip`, and `ip` passes the
final-octet filter. -/
def producedAt (r : NetworkRange) (n : Nat) (ip : IPv4) : Prop :=
  (∀ k, k ≤ n → contains r (iterIP (scanStart r) k) = true) ∧
  iterIP (scanStart r) n = ip ∧ ip.b3 ≠ 0 ∧ ip.b3 ≠ 255

theorem contains_zero_mask (b ip : IPv4) : contains ⟨b, ⟨0, 0, 0, 0⟩⟩ ip = true := by
  simp [contains, maskIP]

/-! ## The claims -/

/-- C1: for the NetworkRange with base 192.168.1.0 and mask 255.255.255.0,
with a fake prober reachable exactly for the addresses with final octets
1, 50 and 254 and a fake resolver returning "gateway.lan" only for final
octet 1 and no name otherwise, the scan returns
[{192.168.1.1, "gateway.lan"}, {192.168.1.50, ""}, {192.168.1.254, ""}]
in exactly that order. -/
theorem c1_end_to_end_scan :
    scanSubnet ⟨⟨192, 168, 1, 0⟩, ⟨255, 255, 255, 0⟩⟩
      (fun ip => ip.b3 == 1 || ip.b3 == 50 || ip.b3 == 254)
      (fun ip => if ip.b3 == 1 then "gateway.lan" else "") =
    [⟨⟨192, 168, 1, 1⟩, true, "gateway.lan"⟩,
     ⟨⟨192, 168, 1, 50⟩, true, ""⟩,
     ⟨⟨192, 168, 1, 254⟩, true, ""⟩] := by decide

/-- C2 (counterexample): for the /24 range 192.168.1.0/255.255.255.0 the
enumeration produces 254 candidates, not 253 as the claim states. -/
theorem c2_counterexample :
    (hostCandidates ⟨⟨192, 168, 1, 0⟩, ⟨255, 255, 255, 0⟩⟩).length ≠ 253 := by decide

/-- C2 (amended): for every well-formed /24 NetworkRange
(mask 255.255.255.0) the enumeration produces exactly 254 candidate
addresses — the 256 final octets minus octet 0 (the base itself) and
octet 255. -/
theorem c2_amended_candidate_count {r : NetworkRange} (hwf : r.WellFormed)
    (hmask : r.mask = ⟨255, 255, 255, 0⟩) : (hostCandidates r).length = 254 := by
  obtain ⟨base, mask⟩ := r
  obtain ⟨hbv, hmv, hal⟩ := hwf
  dsimp only at hbv hmv hal hmask
  subst hmask
  obtain ⟨b0, b1, b2, b3⟩ := base
  obtain ⟨h0, h1, h2, h3⟩ := hbv
  dsimp only at h0 h1 h2 h3
  have hb3 : b3 = 0 := by
    have hc := congrArg IPv4.b3 hal
    dsimp only [maskIP] at hc
    simpa using hc.symm
  subst hb3
  rw [hostCandidates_slash24 h0 h1 h2, List.length_map]
  exact range_256_filter_length

theorem c2_amended_candidate_count_witness :
    (hostCandidates ⟨⟨192, 168, 1, 0⟩, ⟨255, 255, 255, 0⟩⟩).length = 254 :=
  c2_amended_candidate_count (by decide) rfl

/-- C3 (counterexample): for the well-formed /25 range
192.168.1.128/255.255.255.128 the enumeration produces the range's own
network address 192.168.1.128 (= the base) as a candidate, because the
0/255 exclusion only inspects the final octet. -/
theorem c3_counterexample :
    (⟨⟨192, 168, 1, 128⟩, ⟨255, 255, 255, 128⟩⟩ : NetworkRange).WellFormed ∧
    (⟨⟨192, 168, 1, 128⟩, ⟨255, 255, 255, 128⟩⟩ : NetworkRange).base = ⟨192, 168, 1, 128⟩ ∧
    ⟨192, 168, 1, 128⟩ ∈ hostCandidates ⟨⟨192, 168, 1, 128⟩, ⟨255, 255, 255, 128⟩⟩ :=
  ⟨by decide, rfl, by decide⟩

/-- C3 (amended): for every well-formed NetworkRange, every candidate
address the enumeration produces is contained in the range (address AND
mask equals the base) and has final octet neither 0 nor 255 — in
particular it is never the range's final-octet-255 address.  (It can be
the range's network address itself when the mask is not /24-sized.) -/
theorem c3_amended_candidates_in_range {r : NetworkRange} (hwf : r.WellFormed) :
    ∀ ip ∈ hostCandidates r, maskIP ip r.mask = r.base ∧ ip.b3 ≠ 0 ∧ ip.b3 ≠ 255 := by
  intro ip hip
  rw [hostCandidates, List.mem_filter] at hip
  obtain ⟨hmem, hfilt⟩ := hip
  have hcont := mem_enumFrom_contains hmem
  rw [contains] at hcont
  have heq : maskIP ip r.mask = maskIP r.base r.mask := eq_of_beq hcont
  simp only [Bool.not_eq_eq_eq_not, Bool.not_true, Bool.or_eq_false_iff, beq_eq_false_iff_ne,
    ne_eq] at hfilt
  exact ⟨heq.trans hwf.2.2, hfilt.1, hfilt.2⟩

theorem c3_amended_candidates_in_range_witness :
    maskIP ⟨192, 168, 1, 1⟩ ⟨255, 255, 255, 0⟩ = ⟨192, 168, 1, 0⟩ ∧
    (⟨192, 168, 1, 1⟩ : IPv4).b3 ≠ 0 ∧ (⟨192, 168, 1, 1⟩ : IPv4).b3 ≠ 255 :=
  c3_amended_candidates_in_range (r := ⟨⟨192, 168, 1, 0⟩, ⟨255, 255, 255, 0⟩⟩)
    (by decide) ⟨192, 168, 1, 1⟩ (by decide)

/-- C4: a probe whose process runs and exits nonzero — timeout,
destination unreachable, permission denied — yields `some false`
(recorded unreachable), as the claim states; but when the probe tool is
missing the process never starts, `cmd.ProcessState` stays nil, and
`pingHost` evaluates `nil.Success()` — a nil-pointer-dereference runtime
panic (`none`), not `false`.  The code contradicts the claim for the
probe-tool-missing failure mode. -/
theorem c4_pingHost_failure_modes :
    pingHost (some false) = some false ∧ pingHost (some true) = some true ∧
    pingHost none = none :=
  ⟨rfl, rfl, rfl⟩

/-- C5 (counterexample): when the underlying lookup succeeds but its
first name is the empty string, `resolveHostname` evaluates
`hostname[len(hostname)-1]` = `hostname[-1]` — an index-out-of-range
runtime panic (`none`) — instead of returning a string. -/
theorem c5_counterexample : resolveHostname (some [""]) = none := by decide

/-- C5 (amended): provided the first name returned by the lookup (when
one exists) is non-empty — which Go's resolver guarantees for PTR
results — `resolveHostname` never fails: a lookup error or an empty
result set yields the empty string, and otherwise the first name is
returned, with a single trailing dot stripped if the name ends in a
dot. -/
theorem c5_amended_resolveHostname (lookup : Option (List String))
    (hne : ∀ n ns, lookup = some (n :: ns) → n ≠ "") :
    resolveHostname lookup =
      some (match lookup with
        | none => ""
        | some [] => ""
        | some (n :: _) => if n.back = '.' then n.dropRight 1 else n) := by
  match lookup with
  | none => rfl
  | some [] => rfl
  | some (n :: ns) =>
      simp only [resolveHostname]
      rw [if_neg (hne n ns rfl)]
      split_ifs <;> rfl

theorem c5_amended_resolveHostname_witness :
    resolveHostname (some ["gateway.lan."]) = some "gateway.lan" := by
  have h := c5_amended_resolveHostname (some ["gateway.lan."])
    (by
      intro n ns heq
      injection heq with h2
      injection h2 with h3 _
      subst h3
      decide)
  rw [h]
  decide

/-- C6: for every NetworkRange and every prober/resolver behaviour — and
every goroutine completion order — the ScanResult returned by the scan is
sorted ascending by the final octet of the Device addresses (tie order
unspecified). -/
theorem c6_scan_sorted (r : NetworkRange) (prober : IPv4 → Bool)
    (resolver : IPv4 → String) (order : List IPv4) :
    (scanSubnetSchedule prober resolver order).Sorted
      (fun d1 d2 => d1.IP.b3 ≤ d2.IP.b3) ∧
    (scanSubnet r prober resolver).Sorted (fun d1 d2 => d1.IP.b3 ≤ d2.IP.b3) :=
  ⟨sortDevices_sorted _, sortDevices_sorted _⟩

/-- C7 (counterexample): for the well-formed NetworkRange
0.0.0.0/0.0.0.0 the loop guard never fails, the enumeration wraps around
the whole address space, and the candidate 0.0.0.1 is produced both at
step 1 and again at step 2^32 + 1. -/
theorem c7_counterexample :
    (⟨⟨0, 0, 0, 0⟩, ⟨0, 0, 0, 0⟩⟩ : NetworkRange).WellFormed ∧
    producedAt ⟨⟨0, 0, 0, 0⟩, ⟨0, 0, 0, 0⟩⟩ 1 ⟨0, 0, 0, 1⟩ ∧
    producedAt ⟨⟨0, 0, 0, 0⟩, ⟨0, 0, 0, 0⟩⟩ 4294967297 ⟨0, 0, 0, 1⟩ := by
  refine ⟨by decide, ⟨?_, by decide, by decide, by decide⟩,
    ⟨?_, ?_, by decide, by decide⟩⟩
  · intro k _
    exact contains_zero_mask _ _
  · intro k _
    exact contains_zero_mask _ _
  · have hv : (scanStart ⟨⟨0, 0, 0, 0⟩, ⟨0, 0, 0, 0⟩⟩).Valid := by decide
    rw [iterIP_eq hv]
    decide

/-- C7 (amended): for every valid NetworkRange whose mask is not all
zero (equivalently, whose enumeration terminates), no candidate address
is produced twice, and consequently — for every goroutine completion
order — no two Device entries in the ScanResult share the same
address. -/
theorem c7_amended_no_duplicates {r : NetworkRange} (hb : r.base.Valid)
    (hm : r.mask.Valid) (hmask : r.mask ≠ ⟨0, 0, 0, 0⟩) (prober : IPv4 → Bool)
    (resolver : IPv4 → String) :
    (hostCandidates r).Nodup ∧
    ∀ order, order.Perm (hostCandidates r) →
      ((scanSubnetSchedule prober resolver order).map Device.IP).Nodup := by
  have hnd := hostCandidates_nodup hb hm hmask
  refine ⟨hnd, ?_⟩
  intro order hperm
  have h1 : (scanSubnetSchedule prober resolver order).Perm
      (collectDevices prober resolver order) := sortDevices_perm _
  have h2 : ((scanSubnetSchedule prober resolver order).map Device.IP).Perm
      (order.filter prober) := by
    rw [← collectDevices_map_IP prober resolver order]
    exact h1.map Device.IP
  have h3 : (order.filter prober).Perm ((hostCandidates r).filter prober) :=
    hperm.filter prober
  have h4 : ((hostCandidates r).filter prober).Nodup :=
    List.Nodup.filter prober hnd
  exact ((h2.trans h3).nodup_iff).mpr h4

theorem c7_amended_no_duplicates_witness :
    (hostCandidates ⟨⟨192, 168, 1, 0⟩, ⟨255, 255, 255, 0⟩⟩).Nodup ∧
    ((scanSubnetSchedule (fun _ => true) (fun _ => "")
        (hostCandidates ⟨⟨192, 168, 1, 0⟩, ⟨255, 255, 255, 0⟩⟩)).map Device.IP).Nodup := by
  obtain ⟨h1, h2⟩ := c7_amended_no_duplicates
    (r := ⟨⟨192, 168, 1, 0⟩, ⟨255, 255, 255, 0⟩⟩) (by decide) (by decide) (by decide)
    (fun _ => true) (fun _ => "")
  exact ⟨h1, h2 _ (List.Perm.refl _)⟩

/-- C8 (counterexample): the all-zero mask yields a well-formed
NetworkRange (0.0.0.0 AND 0.0.0.0 = 0.0.0.0) for which the guard
`ipnet.Contains` holds at every step: the enumeration loop never
terminates, contradicting the claim for this range. -/
theorem c8_counterexample :
    (⟨⟨0, 0, 0, 0⟩, ⟨0, 0, 0, 0⟩⟩ : NetworkRange).WellFormed ∧
    ¬ Terminates ⟨⟨0, 0, 0, 0⟩, ⟨0, 0, 0, 0⟩⟩ := by
  refine ⟨by decide, ?_⟩
  rintro ⟨n, hn⟩
  rw [contains_zero_mask] at hn
  exact Bool.noConfusion hn

/-- C8 (amended): for every well-formed NetworkRange whose mask is not
all-zero, the candidate enumeration — start at the masked base, increment
with big-endian carry, stop when the address leaves the range —
terminates: after finitely many increments the guard fails.  (No other
failure mode exists: the enumeration is a total function of the
range.) -/
theorem c8_amended_termination {r : NetworkRange} (hwf : r.WellFormed)
    (hmask : r.mask ≠ ⟨0, 0, 0, 0⟩) : Terminates r := by
  obtain ⟨n, _, hexit⟩ := exists_exit hwf.1 hwf.2.1 hmask
  exact ⟨n, hexit⟩

theorem c8_amended_termination_witness :
    Terminates ⟨⟨192, 168, 1, 0⟩, ⟨255, 255, 255, 0⟩⟩ :=
  c8_amended_termination (by decide) (by decide)

/-- C9: with a deterministic prober/resolver pair, any two sweeps over
the same range — that is, any two goroutine completion orders, each a
permutation of the candidate enumeration — produce ScanResults equal as
multisets (hence as sets) of (address, hostname) pairs, and equal as
sequences whenever no two Devices share a final octet. -/
theorem c9_deterministic_sweeps {r : NetworkRange} (prober : IPv4 → Bool)
    (resolver : IPv4 → String) {o1 o2 : List IPv4}
    (h1 : o1.Perm (hostCandidates r)) (h2 : o2.Perm (hostCandidates r)) :
    ((scanSubnetSchedule prober resolver o1).map
        (fun d => (d.IP, d.Hostname))).Perm
      ((scanSubnetSchedule prober resolver o2).map (fun d => (d.IP, d.Hostname))) ∧
    ((scanSubnetSchedule prober resolver o1).Pairwise
        (fun d1 d2 => d1.IP.b3 ≠ d2.IP.b3) →
      scanSubnetSchedule prober resolver o1 = scanSubnetSchedule prober resolver o2) := by
  have hco : (collectDevices prober resolver o1).Perm
      (collectDevices prober resolver o2) :=
    List.Perm.filterMap _ (h1.trans h2.symm)
  have hperm : (scanSubnetSchedule prober resolver o1).Perm
      (scanSubnetSchedule prober resolver o2) :=
    (sortDevices_perm _).trans (hco.trans (sortDevices_perm _).symm)
  refine ⟨hperm.map _, ?_⟩
  intro hdist
  exact sortDevices_eq_of_perm hco hdist

theorem c9_deterministic_sweeps_witness :
    ((scanSubnetSchedule (fun ip => ip.b3 == 1) (fun _ => "")
        (hostCandidates ⟨⟨192, 168, 1, 0⟩, ⟨255, 255, 255, 0⟩⟩)).map
        (fun d => (d.IP, d.Hostname))).Perm
      ((scanSubnetSchedule (fun ip => ip.b3 == 1) (fun _ => "")
        (hostCandidates ⟨⟨192, 168, 1, 0⟩, ⟨255, 255, 255, 0⟩⟩)).map
        (fun d => (d.IP, d.Hostname))) ∧
    ((scanSubnetSchedule (fun ip => ip.b3 == 1) (fun _ => "")
        (hostCandidates ⟨⟨192, 168, 1, 0⟩, ⟨255, 255, 255, 0⟩⟩)).Pairwise
        (fun d1 d2 => d1.IP.b3 ≠ d2.IP.b3) →
      scanSubnetSchedule (fun ip => ip.b3 == 1) (fun _ => "")
          (hostCandidates ⟨⟨192, 168, 1, 0⟩, ⟨255, 255, 255, 0⟩⟩) =
        scanSubnetSchedule (fun ip => ip.b3 == 1) (fun _ => "")
          (hostCandidates ⟨⟨192, 168, 1, 0⟩, ⟨255, 255, 255, 0⟩⟩)) :=
  c9_deterministic_sweeps (r := ⟨⟨192, 168, 1, 0⟩, ⟨255, 255, 255, 0⟩⟩)
    (fun ip => ip.b3 == 1) (fun _ => "") (List.Perm.refl _) (List.Perm.refl _)

/-- C10: every Device in a ScanResult has Online = true and is present
only because its probe returned reachable; when the prober reports
unreachable for every candidate, the scan returns the empty sequence. -/
theorem c10_online_invariant (r : NetworkRange) (prober : IPv4 → Bool)
    (resolver : IPv4 → String) :
    (∀ d ∈ scanSubnet r prober resolver, d.Online = true ∧ prober d.IP = true) ∧
    ((∀ ip ∈ hostCandidates r, prober ip = false) →
      scanSubnet r prober resolver = []) := by
  constructor
  · intro d hd
    have hmem : d ∈ collectDevices prober resolver (hostCandidates r) :=
      (sortDevices_perm _).mem_iff.mp hd
    exact online_of_mem_collect hmem
  · intro hoff
    show sortDevices (collectDevices prober resolver (hostCandidates r)) = []
    rw [collect_nil_of_offline hoff]
    rfl

theorem c10_online_invariant_witness :
    scanSubnet ⟨⟨10, 0, 0, 0⟩, ⟨255, 255, 255, 0⟩⟩ (fun _ => false) (fun _ => "") = [] :=
  (c10_online_invariant ⟨⟨10, 0, 0, 0⟩, ⟨255, 255, 255, 0⟩⟩ (fun _ => false)
    (fun _ => "")).2 (fun _ _ => rfl)
